import Mathlib

/-!
Verification development for the proxygen configuration-synthesis engine.

The definitions below are a shallow embedding of the Python sources:
* `app/services/clash_config_service.py` (group synthesizer, pruning fixed
  point, rule synthesizer, rule-provider expander), and
* `app/services/profile_service.py` (subscription-metadata codec).

Conventions of the embedding:
* Python strings are Lean `String`s; `str.split`, `str.strip`, `str.lower`,
  `','.join` are re-implemented below on `List Char` so that they can be
  reasoned about directly.
* Python `set`s are `List String` used only through membership.
* Python `dict`s keyed by name (the active-group map, `subscription_info`)
  are association lists with dict update semantics: replacing an existing
  key keeps its position, a new key is appended.
* Regexes used as group membership filters are abstracted as a `String → Bool`
  predicate (the engine only evaluates `pattern.search(name)` truthiness);
  the fixed traffic/expire regexes of the codec are implemented concretely.
* The `while` loop of `_prune_groups` is modelled with explicit fuel; every
  iteration except the last deletes at least one group, so `length + 1` fuel
  always reaches the loop's exit condition.
-/

namespace Proxygen

/-! ## String primitives (re-implementations of the Python `str` operations) -/

/-- Whitespace recognised by Python `str.strip()`. -/
def isSpaceChar (c : Char) : Bool :=
  c = ' ' || c = '\t' || c = '\n' || c = '\r' || c = '\x0b' || c = '\x0c'

/-- Remove the trailing run of characters satisfying `p` (helper for strip). -/
def dropTrail (p : Char → Bool) (l : List Char) : List Char :=
  (l.reverse.dropWhile p).reverse

/-- Python `str.strip()` on a character list. -/
def trimChars (l : List Char) : List Char :=
  dropTrail isSpaceChar (l.dropWhile isSpaceChar)

/-- Python `str.strip()`. -/
def trimStr (s : String) : String :=
  ⟨trimChars s.data⟩

/-- Python `str.split(sep)` for a one-character separator: no run collapsing,
`"" → [""]`, `"a,,b" → ["a","","b"]`. -/
def splitChar (sep : Char) : List Char → List (List Char)
  | [] => [[]]
  | c :: cs =>
    if c = sep then [] :: splitChar sep cs
    else
      match splitChar sep cs with
      | [] => [[c]]
      | p :: ps => (c :: p) :: ps

/-- Python `str.split(',')`. -/
def splitComma (s : String) : List String :=
  (splitChar ',' s.data).map (fun l => ⟨l⟩)

/-- Python `','.join(parts)`. -/
def joinComma : List String → String
  | [] => ""
  | [s] => s
  | s :: rest => s ++ "," ++ joinComma rest

/-- Python `str.lower()` (ASCII case folding, identity on other characters,
matching the engine's usage). -/
def lowerStr (s : String) : String :=
  ⟨s.data.map Char.toLower⟩

/-- Python `pat in s` on character lists (substring containment). -/
def containsSubChars (pat : List Char) : List Char → Bool
  | [] => pat.isPrefixOf []
  | c :: t => pat.isPrefixOf (c :: t) || containsSubChars pat t

/-- Python `pat in s` for strings. -/
def containsSub (pat s : String) : Bool :=
  containsSubChars pat.data s.data

/-! ## Data model (`app/schemas/clash_config.py`)

`ProxyGroup` is split in two: `GroupTemplate` is the validated input record
(still carrying `filter`), `PGroup` is the working record after
`group.pop("filter", None)` in `_process_groups`. -/

/-- An input proxy-group template (the `ProxyGroup` pydantic schema).
The `filter` regex is abstracted as a match predicate over proxy names. -/
structure GroupTemplate where
  name : String
  type : String
  proxies : List String := []
  url : Option String := none
  interval : Option Int := none
  tolerance : Option Int := none
  filter : Option (String → Bool) := none
  removable : Bool := false

/-- A working/output proxy group (template with `filter` popped). -/
structure PGroup where
  name : String
  type : String
  proxies : List String := []
  url : Option String := none
  interval : Option Int := none
  tolerance : Option Int := none
  removable : Bool := false
deriving DecidableEq, Repr

/-- The built-in routing sinks (`built_ins` in `generate_config` and
`_process_groups`). -/
def builtIns : List String := ["DIRECT", "REJECT", "NO-HYDRA"]

/-! ## Group synthesizer (`ClashConfigService._process_groups`) -/

/-- `list(dict.fromkeys(l))`: deduplicate keeping the first occurrence. -/
def dedupFirstAux (seen : List String) : List String → List String
  | [] => []
  | x :: xs =>
    if seen.contains x then dedupFirstAux seen xs
    else x :: dedupFirstAux (x :: seen) xs

/-- Deduplicate a proxy list, first occurrence wins. -/
def dedupFirst (l : List String) : List String :=
  dedupFirstAux [] l

/-- `active_groups[group_name] = group` with Python dict semantics: an
existing key keeps its position and gets the new value, a new key is
appended. -/
def dictInsertGroup (gs : List PGroup) (g : PGroup) : List PGroup :=
  if gs.any (fun h => h.name = g.name) then
    gs.map (fun h => if h.name = g.name then g else h)
  else gs ++ [g]

/-- One iteration of the template loop in `_process_groups` (lines 81–114):
expand the filter regex over the ordered proxy names, record used proxies,
deduplicate, and insert into the active-group map. -/
def buildStep (orderedProxyNames proxyNamesSet : List String)
    (acc : List PGroup × List String) (t : GroupTemplate) :
    List PGroup × List String :=
  let (active, used) := acc
  let matched :=
    match t.filter with
    | some pat => orderedProxyNames.filter pat
    | none => []
  let proxies1 := t.proxies ++ matched
  let used1 := used ++ matched
  let used2 := used1 ++ proxies1.filter (fun p => proxyNamesSet.contains p)
  let g : PGroup :=
    { name := t.name, type := t.type, proxies := dedupFirst proxies1,
      url := t.url, interval := t.interval, tolerance := t.tolerance,
      removable := t.removable }
  (dictInsertGroup active g, used2)

/-- The template loop of `_process_groups`: returns the active-group map and
the used-proxy set. -/
def buildActiveGroups (templates : List GroupTemplate)
    (orderedProxyNames proxyNamesSet : List String) :
    List PGroup × List String :=
  templates.foldl (buildStep orderedProxyNames proxyNamesSet) ([], [])

/-- Unclassified-proxy handling (lines 117–125): append the unclassified
names to the group literally named `PROXY` when it exists, then deduplicate;
otherwise only a warning is logged and the map is unchanged. -/
def routeUnclassified (active : List PGroup) (unclassified : List String) :
    List PGroup :=
  if unclassified.isEmpty then active
  else if active.any (fun g => g.name = "PROXY") then
    active.map (fun g =>
      if g.name = "PROXY" then
        { g with proxies := dedupFirst (g.proxies ++ unclassified) }
      else g)
  else active

/-! ## Pruning fixed point (`ClashConfigService._prune_groups`) -/

/-- `valid_targets = base_valid_targets.union(active_groups.keys())`. -/
def validTargetsOf (base : List String) (gs : List PGroup) : List String :=
  base ++ gs.map (fun g => g.name)

/-- The body of the per-group loop in `_prune_groups` (lines 142–166):
`none` means the group is put on `groups_to_remove` (a removable group with
a dangling reference, or a group left with zero entries after filtering);
`some` is the surviving group with its proxies filtered. -/
def pruneGroupStep (vt : List String) (g : PGroup) : Option PGroup :=
  if g.removable && g.proxies.any (fun p => !(vt.contains p)) then none
  else
    let vp := g.proxies.filter (fun p => vt.contains p)
    if vp.isEmpty then none else some { g with proxies := vp }

/-- One full pass of the `while True` loop of `_prune_groups`: the valid
target set is fixed at the start of the pass, every group is filtered or
scheduled for removal, and removals are applied at the end of the pass. -/
def prunePassList (base : List String) (gs : List PGroup) : List PGroup :=
  gs.filterMap (pruneGroupStep (validTargetsOf base gs))

/-- The `while True:` loop with explicit fuel; the loop exits when a pass
removes nothing (`removed_count == 0`), returning the state *after* that
final pass (its filtering has already been applied). -/
def pruneAux (base : List String) : Nat → List PGroup → List PGroup
  | 0, gs => gs
  | fuel + 1, gs =>
    let gs' := prunePassList base gs
    if gs'.length = gs.length then gs' else pruneAux base fuel gs'

/-- `_prune_groups`: every non-final pass deletes at least one group, so
`length + 1` fuel always reaches the exit condition. -/
def pruneGroups (base : List String) (gs : List PGroup) : List PGroup :=
  pruneAux base (gs.length + 1) gs

/-- `_process_groups`: template expansion, unclassified routing, then the
iterative pruning with `base_valid_targets = proxy_names_set ∪ built_ins`. -/
def processGroups (templates : List GroupTemplate)
    (orderedProxyNames proxyNamesSet : List String) : List PGroup :=
  let (active, used) := buildActiveGroups templates orderedProxyNames proxyNamesSet
  let unclassified := orderedProxyNames.filter (fun p => !(used.contains p))
  pruneGroups (proxyNamesSet ++ builtIns) (routeUnclassified active unclassified)

/-! ## Rule synthesizer (`ClashConfigService._process_rules`) and
rule-provider expander (`ClashConfigService._expand_rule_set`)

Provider file contents are supplied by `config_repo.load_provider_file`
(an I/O collaborator); the embedding takes them as a `loadProvider`
function from paths to the pre-filtered line list. -/

/-- The `RuleProvider` pydantic schema. -/
structure RuleProvider where
  type : String
  path : String
deriving DecidableEq, Repr

/-- The rules template `{ "rule-providers": {...}, "rules": [...] }`.
In the embedding the entries are already shape-valid (pydantic validation
is played by the Lean types), so `validated_providers` is the provider map
itself. -/
structure RulesData where
  ruleProviders : List (String × RuleProvider) := []
  rules : List String := []

/-- The target a rule string carries per the rule grammar used by
`_process_rules` (lines 221–227): second field for `MATCH`, third field for
any other kind with at least three fields, undetermined otherwise. -/
def ruleTargetOf (rule : String) : Option String :=
  let parts := (splitComma rule).map trimStr
  if parts.headD "" = "MATCH" then
    if parts.length ≥ 2 then some (parts.getD 1 "") else none
  else if parts.length ≥ 3 then some (parts.getD 2 "") else none

/-- One line of `_expand_rule_set` (lines 246–255): split and strip, pop a
trailing case-insensitive `no-resolve`, rejoin, and append the target plus
the remembered suffix. -/
def expandLine (target : String) (line : String) : String :=
  let lineParts := (splitComma line).map trimStr
  if lowerStr (lineParts.getLastD "") = "no-resolve" then
    joinComma lineParts.dropLast ++ "," ++ target ++ ",no-resolve"
  else
    joinComma lineParts ++ "," ++ target

/-- `_expand_rule_set`: an empty path yields no rules, otherwise every
provider line expands in file order. -/
def expandRuleSet (loadProvider : String → List String)
    (provider : RuleProvider) (target : String) : List String :=
  if provider.path = "" then []
  else (loadProvider provider.path).map (expandLine target)

/-- The per-rule body of the loop in `_process_rules` (lines 194–235); the
returned list is what the rule contributes to `valid_rules`. Non-string
entries cannot occur in the embedding (rules are `String`s); blank rules
are skipped. -/
def processRule (loadProvider : String → List String)
    (providers : List (String × RuleProvider)) (validTargets : List String)
    (rule : String) : List String :=
  if trimStr rule = "" then []
  else
    let parts := (splitComma rule).map trimStr
    if parts.headD "" = "RULE-SET" then
      if parts.length < 3 then []
      else
        let providerName := parts.getD 1 ""
        let target := parts.getD 2 ""
        if !(validTargets.contains target) then []
        else
          match providers.lookup providerName with
          | none => []
          | some provider => expandRuleSet loadProvider provider target
    else
      -- the non-RULE-SET branch; note Python's `if target:` treats an
      -- empty-string target like an absent one (truthiness)
      match ruleTargetOf rule with
      | some t =>
        if t = "" then [rule]
        else if validTargets.contains t then [rule] else []
      | none => [rule]

/-- `_process_rules`. The `if not rules_data: return []` guard only
short-circuits the falsy empty dict, whose processing yields `[]` anyway. -/
def processRules (loadProvider : String → List String)
    (rulesData : RulesData) (validTargets : List String) : List String :=
  rulesData.rules.flatMap
    (processRule loadProvider rulesData.ruleProviders validTargets)

/-- The valid-target set computed in `generate_config` (lines 50–52) for
rule processing: proxy names, processed group names, and the built-ins. -/
def rulesValidTargets (proxyNamesSet : List String)
    (processed : List PGroup) : List String :=
  proxyNamesSet ++ processed.map (fun g => g.name) ++ builtIns

/-- A well-formedness condition on a provider line under which rule-set
expansion preserves referential closure of the grammar-position target:
after popping a trailing `no-resolve`, the line is either a non-`MATCH`
kind with exactly two fields, a non-`MATCH` single field with no
`no-resolve` suffix, or the bare `MATCH` kind. -/
def wellFormedProviderLineB (line : String) : Bool :=
  let q := (splitComma line).map trimStr
  let nr := lowerStr (q.getLastD "") == "no-resolve"
  let core := if nr then q.dropLast else q
  !(core.isEmpty) &&
    (if core.headD "" == "MATCH" then core.length == 1
     else (core.length == 2 || (core.length == 1 && !nr)))

/-! ## Subscription-metadata codec (`app/services/profile_service.py`)

Time conversions: the Python code calls `datetime.fromtimestamp` and
`datetime.strptime(...).timestamp()`, which use the system timezone; the
embedding fixes the timezone to UTC (proleptic Gregorian civil-date
arithmetic).  Float formatting `f"{x:.2f}"` is modelled as exact rational
rounding (round half to even), which agrees with the code away from
binary-floating-point edge cases. -/

/-- A proxy node: an opaque attribute map with a distinguished `name`.
All non-name attributes pass through the engine untouched and are kept as
an uninterpreted key/value list. -/
structure Proxy where
  name : String
  rest : List (String × String) := []
deriving DecidableEq, Repr

/-- The fixed placeholder transport fields of the synthetic traffic node
(`_create_traffic_proxy_node`, lines 196–203). -/
def dummyProxyFields : List (String × String) :=
  [("type", "ss"), ("server", "127.0.0.1"), ("port", "1234"),
   ("cipher", "aes-128-gcm"), ("password", "dummy")]

/-- `dict[k] = v` on an association list: replace in place or append. -/
def assocSet (info : List (String × String)) (k v : String) :
    List (String × String) :=
  match info with
  | [] => [(k, v)]
  | (k', v') :: rest =>
    if k' = k then (k, v) :: rest else (k', v') :: assocSet rest k v

/-- Days-to-civil-date conversion for the proleptic Gregorian calendar
(UTC model of `datetime.fromtimestamp(ts).date()`). -/
def civilFromDays (z0 : Int) : Int × Int × Int :=
  let z := z0 + 719468
  let era := Int.fdiv z 146097
  let doe := z - era * 146097
  let yoe := Int.fdiv (doe - Int.fdiv doe 1460 + Int.fdiv doe 36524 - Int.fdiv doe 146096) 365
  let y := yoe + era * 400
  let doy := doe - (365 * yoe + Int.fdiv yoe 4 - Int.fdiv yoe 100)
  let mp := Int.fdiv (5 * doy + 2) 153
  let d := doy - Int.fdiv (153 * mp + 2) 5 + 1
  let m := mp + (if mp < 10 then 3 else -9)
  (y + (if m ≤ 2 then 1 else 0), m, d)

/-- Civil-date-to-days conversion, inverse of `civilFromDays` (UTC model of
`datetime(y, m, d).timestamp() / 86400`). -/
def daysFromCivil (y0 m d : Int) : Int :=
  let y := y0 - (if m ≤ 2 then 1 else 0)
  let era := Int.fdiv y 400
  let yoe := y - era * 400
  let mp := if m > 2 then m - 3 else m + 9
  let doy := Int.fdiv (153 * mp + 2) 5 + d - 1
  let doe := yoe * 365 + Int.fdiv yoe 4 - Int.fdiv yoe 100 + doy
  era * 146097 + doe - 719468

/-- Left-pad a natural's decimal representation with zeros. -/
def padNat (width : Nat) (n : Nat) : String :=
  let s := toString n
  if s.length < width then String.mk (List.replicate (width - s.length) '0') ++ s
  else s

/-- `strftime("%Y-%m-%d")` for an in-range civil date. -/
def formatDate : Int × Int × Int → String
  | (y, m, d) => padNat 4 y.toNat ++ "-" ++ padNat 2 m.toNat ++ "-" ++ padNat 2 d.toNat

/-- `f"{bytes / 2**30:.2f}"` for a non-negative byte count, as exact
rational rounding (half to even) to two decimals. -/
def fmtGB2 (bytes : Nat) : String :=
  let q := bytes * 100
  let d := 2 ^ 30
  let n := q / d
  let r := q % d
  let n := if 2 * r < d then n else if 2 * r > d then n + 1
           else if n % 2 = 0 then n else n + 1
  toString (n / 100) ++ "." ++ padNat 2 (n % 100)

/-- `f"{x:.2f}"` extended to negative values by sign splitting. -/
def fmtGB2I (bytes : Int) : String :=
  if bytes < 0 then "-" ++ fmtGB2 (-bytes).toNat else fmtGB2 bytes.toNat

/-- Python `int(s)` on an already-stripped string: optional sign followed by
at least one ASCII digit. -/
def parseIntStr (s : String) : Option Int :=
  let go (ds : List Char) (sign : Bool) : Option Int :=
    if ds ≠ [] ∧ ds.all Char.isDigit then
      let n : Nat := ds.foldl (fun acc c => acc * 10 + (c.toNat - '0'.toNat)) 0
      some (if sign then -(n : Int) else (n : Int))
    else none
  match s.data with
  | '-' :: ds => go ds true
  | '+' :: ds => go ds false
  | ds => go ds false

/-- The header parse of `_create_traffic_proxy_node` (lines 172–177): split
on `;`, keep the parts containing `=`, split each once on `=`, strip, and
parse the value as an integer; any non-integer value raises and makes the
whole function return `None`. -/
def parseHeaderInfo (h : String) : Option (List (String × Int)) :=
  let parts := (splitChar ';' h.data).map (fun l => (⟨l⟩ : String))
  parts.foldl
    (fun acc part =>
      match acc with
      | none => none
      | some info =>
        if part.data.contains '=' then
          match splitChar '=' (trimStr part).data with
          | [] => none
          | k :: vs =>
            -- `split('=', 1)`: the value is everything after the first `=`
            match parseIntStr (trimStr (joinEq vs)) with
            | none => none
            | some n => some (assocSetInt info (trimStr ⟨k⟩) n)
        else some info)
    (some [])
where
  /-- rejoin the post-`=` fragments (`split('=', 1)` keeps later `=`s). -/
  joinEq : List (List Char) → String
    | [] => ""
    | [l] => ⟨l⟩
    | l :: rest => (⟨l⟩ : String) ++ "=" ++ joinEq rest
  /-- dict update for the integer-valued header map. -/
  assocSetInt (info : List (String × Int)) (k : String) (v : Int) :
      List (String × Int) :=
    match info with
    | [] => [(k, v)]
    | (k', v') :: rest =>
      if k' = k then (k, v) :: rest else (k', v') :: assocSetInt rest k v

/-- `_create_traffic_proxy_node`: parse the `subscription-userinfo` header,
render the human-readable traffic/expiry label, and wrap it as a dummy
Shadowsocks node.  An out-of-range `expire` timestamp models the
`OverflowError` of `datetime.fromtimestamp`, caught into `None` like every
other exception in the Python function. -/
def createTrafficProxyNode (h : String) : Option Proxy :=
  match parseHeaderInfo h with
  | none => none
  | some info =>
    let get (k : String) : Int := ((info.lookup k).getD 0)
    let upload := get "upload"
    let download := get "download"
    let total := get "total"
    let expire := get "expire"
    let traffic :=
      "Traffic: " ++ fmtGB2I (upload + download) ++ " GB / " ++ fmtGB2I total ++ " GB"
    if expire ≠ 0 then
      if expire < -62135596800 ∨ expire > 253402300799 then none
      else
        some ⟨traffic ++ " | " ++ ("Expire: " ++ formatDate (civilFromDays (Int.fdiv expire 86400))),
              dummyProxyFields⟩
    else some ⟨traffic, dummyProxyFields⟩

/-- `_is_traffic_node`: case-sensitive substring check for the four
keywords `Traffic`, `流量`, `Expire`, `到期`. -/
def isTrafficNode (p : Proxy) : Bool :=
  containsSub "Traffic" p.name || containsSub "流量" p.name ||
    containsSub "Expire" p.name || containsSub "到期" p.name

/-- Step 4 of `fetch_and_update_profile` (lines 140–148): when the response
carries a non-empty `subscription-userinfo` header and it parses, drop the
existing traffic nodes and insert the fresh synthetic node first. -/
def applySubscriptionHeader (header : Option String) (proxies : List Proxy) :
    List Proxy :=
  match header with
  | none => proxies
  | some h =>
    if h = "" then proxies
    else
      match createTrafficProxyNode h with
      | none => proxies
      | some d => d :: proxies.filter (fun p => !(isTrafficNode p))

/-! ### Decode side (`ProfileService._extract_subscription_info`)

The two fixed regexes are implemented as explicit scanners with the same
match semantics on the name strings the engine sees:
`(?:Traffic|流量).*?(\d+(?:\.\d+)?)\s*(GB|G|MB|M).*?(\d+(?:\.\d+)?)\s*(GB|G|MB|M)`
and `(?:Expire|到期|过期).*?(\d{4}-\d{2}-\d{2})`, both case-insensitive. -/

/-- Case-insensitive prefix match of a (pre-lowercased) keyword. -/
def lowerPrefAt : List Char → List Char → Bool
  | [], _ => true
  | _ :: _, [] => false
  | p :: ps, c :: cs => p = c.toLower && lowerPrefAt ps cs

/-- Match `(GB|G|MB|M)` case-insensitively at this position, returning the
normalised unit and the remainder (alternatives tried in regex order). -/
def unitAt (l : List Char) : Option (String × List Char) :=
  match l with
  | c :: c' :: rest =>
    if c.toLower = 'g' then
      if c'.toLower = 'b' then some ("GB", rest) else some ("G", c' :: rest)
    else if c.toLower = 'm' then
      if c'.toLower = 'b' then some ("MB", rest) else some ("M", c' :: rest)
    else none
  | [c] =>
    if c.toLower = 'g' then some ("G", [])
    else if c.toLower = 'm' then some ("M", [])
    else none
  | [] => none

/-- Match `(\d+(?:\.\d+)?)\s*(GB|G|MB|M)` anchored at this position,
trying the fractional alternative first like the backtracking engine. -/
def numUnitAt (l : List Char) : Option (String × String × List Char) :=
  let ds := l.takeWhile Char.isDigit
  if ds.isEmpty then none
  else
    let r1 := l.drop ds.length
    let withFrac : Option (String × String × List Char) :=
      match r1 with
      | '.' :: r2 =>
        let fs := r2.takeWhile Char.isDigit
        if fs.isEmpty then none
        else
          let r3 := (r2.drop fs.length).dropWhile isSpaceChar
          match unitAt r3 with
          | some (u, rest) => some (⟨ds ++ '.' :: fs⟩, u, rest)
          | none => none
      | _ => none
    match withFrac with
    | some res => some res
    | none =>
      let r3 := r1.dropWhile isSpaceChar
      match unitAt r3 with
      | some (u, rest) => some (⟨ds⟩, u, rest)
      | none => none

/-- `.*?(\d+(?:\.\d+)?)\s*(GB|G|MB|M)`: the leftmost number/unit match. -/
def searchNumUnit : List Char → Option (String × String × List Char)
  | [] => none
  | c :: t =>
    match numUnitAt (c :: t) with
    | some res => some res
    | none => searchNumUnit t

/-- The traffic regex: scan for the first `Traffic`/`流量` keyword that is
followed by two number/unit groups, returning
(used value, used unit, total value, total unit). -/
def searchTraffic : List Char → Option (String × String × String × String)
  | [] => none
  | c :: t =>
    let tryAt (n : Nat) : Option (String × String × String × String) :=
      match searchNumUnit ((c :: t).drop n) with
      | some (v1, u1, r1) =>
        match searchNumUnit r1 with
        | some (v2, u2, _) => some (v1, u1, v2, u2)
        | none => none
      | none => none
    if lowerPrefAt "traffic".data (c :: t) then
      match tryAt 7 with
      | some res => some res
      | none => searchTraffic t
    else if lowerPrefAt "流量".data (c :: t) then
      match tryAt 2 with
      | some res => some res
      | none => searchTraffic t
    else searchTraffic t

/-- Match `\d{4}-\d{2}-\d{2}` anchored at this position. -/
def dateAt (l : List Char) : Option (Nat × Nat × Nat × List Char) :=
  match l with
  | y1 :: y2 :: y3 :: y4 :: '-' :: m1 :: m2 :: '-' :: d1 :: d2 :: rest =>
    if [y1, y2, y3, y4, m1, m2, d1, d2].all Char.isDigit then
      let nat2 (a b : Char) : Nat := (a.toNat - '0'.toNat) * 10 + (b.toNat - '0'.toNat)
      some ((nat2 y1 y2) * 100 + nat2 y3 y4, nat2 m1 m2, nat2 d1 d2, rest)
    else none
  | _ => none

/-- `.*?(\d{4}-\d{2}-\d{2})`: the leftmost date match. -/
def searchDate : List Char → Option (Nat × Nat × Nat)
  | [] => none
  | c :: t =>
    match dateAt (c :: t) with
    | some (y, m, d, _) => some (y, m, d)
    | none => searchDate t

/-- The expire regex: scan for the first `Expire`/`到期`/`过期` keyword
followed by a `YYYY-MM-DD` date. -/
def searchExpire : List Char → Option (Nat × Nat × Nat)
  | [] => none
  | c :: t =>
    let kw : Option Nat :=
      if lowerPrefAt "expire".data (c :: t) then some 6
      else if lowerPrefAt "到期".data (c :: t) then some 2
      else if lowerPrefAt "过期".data (c :: t) then some 2
      else none
    match kw with
    | some n =>
      match searchDate ((c :: t).drop n) with
      | some res => some res
      | none => searchExpire t
    | none => searchExpire t

/-- Whether `datetime.strptime(f"{y:04d}-{m:02d}-{d:02d}", "%Y-%m-%d")`
accepts the date (it validates calendar bounds and requires year ≥ 1). -/
def strptimeOk (y m d : Nat) : Bool :=
  let leap := y % 4 = 0 && (y % 100 ≠ 0 || y % 400 = 0)
  let dim : Nat :=
    if m = 2 then (if leap then 29 else 28)
    else if m = 4 || m = 6 || m = 9 || m = 11 then 30
    else 31
  1 ≤ y && 1 ≤ m && m ≤ 12 && 1 ≤ d && d ≤ dim

/-- `to_bytes(val, unit)` (lines 69–72): `int(float(val) * mult)` with
`mult = 2^30` when the unit contains `G`, else `2^20`, computed exactly on
the decimal literal the regex captured. -/
def toBytesVal (val unit : String) : Nat :=
  let mult : Nat := if (lowerStr unit).data.contains 'g' then 2 ^ 30 else 2 ^ 20
  let (intPart, fracPart) :=
    match splitChar '.' val.data with
    | [i] => (i, ([] : List Char))
    | i :: f :: _ => (i, f)
    | [] => ([], [])
  let digits (ds : List Char) : Nat :=
    ds.foldl (fun acc c => acc * 10 + (c.toNat - '0'.toNat)) 0
  (digits intPart * 10 ^ fracPart.length + digits fracPart) * mult / 10 ^ fracPart.length

/-- `_extract_subscription_info` (lines 61–91): scan one proxy name with
the traffic and expire patterns and fold the findings into the
`subscription_info` accumulator (dict update, last match wins across the
names scanned so far). -/
def extractSubscriptionInfo (proxyName : String)
    (info : List (String × String)) : List (String × String) :=
  let info1 :=
    match searchTraffic proxyName.data with
    | some (usedVal, usedUnit, totalVal, totalUnit) =>
      let download := toBytesVal usedVal usedUnit
      let total := toBytesVal totalVal totalUnit
      assocSet (assocSet (assocSet info "upload" "0")
        "download" (toString download)) "total" (toString total)
    | none => info
  match searchExpire proxyName.data with
  | some (y, m, d) =>
    if strptimeOk y m d then
      assocSet info1 "expire" (toString (daysFromCivil y m d * 86400))
    else info1
  | none => info1

/-! ## Lemmas about the pruning fixed point -/

/-- Bridge between the executable `List.contains` and membership. -/
lemma contains_iff_mem {l : List String} {a : String} :
    l.contains a = true ↔ a ∈ l := by
  simp [List.contains, List.elem_iff]

/-- The invariant established by the pruning fixed point: every surviving
group is non-empty and refers only to base targets or surviving groups. -/
def PrunedInv (base : List String) (gs : List PGroup) : Prop :=
  ∀ g ∈ gs, g.proxies ≠ [] ∧
    ∀ p ∈ g.proxies, p ∈ base ∨ p ∈ gs.map (fun h => h.name)

lemma pruneGroupStep_eq_some {vt : List String} {g h : PGroup}
    (hs : pruneGroupStep vt g = some h) :
    h.name = g.name ∧ h.proxies ≠ [] ∧ ∀ p ∈ h.proxies, p ∈ vt := by
  simp only [pruneGroupStep] at hs
  split at hs
  · exact Option.noConfusion hs
  · split at hs
    · exact Option.noConfusion hs
    · rename_i hne
      have hne' : g.proxies.filter (fun p => vt.contains p) ≠ [] := by
        intro hnil
        exact hne (by rw [hnil]; rfl)
      obtain rfl : { g with proxies := g.proxies.filter (fun p => vt.contains p) } = h :=
        Option.some.inj hs
      refine ⟨rfl, hne', ?_⟩
      intro p hp
      exact contains_iff_mem.mp (List.of_mem_filter hp)

lemma pruneGroupStep_eq_self {vt : List String} {g : PGroup}
    (hne : g.proxies ≠ []) (hall : ∀ p ∈ g.proxies, p ∈ vt) :
    pruneGroupStep vt g = some g := by
  have hany : g.proxies.any (fun p => !(vt.contains p)) = false := by
    simp only [List.any_eq_false, Bool.not_eq_true']
    intro p hp
    have hc : vt.contains p = true := contains_iff_mem.mpr (hall p hp)
    simp [hc]
    exact hall p hp
  have hfilter : g.proxies.filter (fun p => vt.contains p) = g.proxies := by
    rw [List.filter_eq_self]
    intro p hp
    exact contains_iff_mem.mpr (hall p hp)
  have hempty : g.proxies.isEmpty = false := by
    cases hc : g.proxies with
    | nil => exact absurd hc hne
    | cons a t => simp
  unfold pruneGroupStep
  rw [hany, Bool.and_false, if_neg (by simp)]
  simp only [hfilter, hempty]
  rw [if_neg (by simp)]

lemma filterMap_eq_self_of_some {α : Type} {f : α → Option α} {l : List α}
    (h : ∀ a ∈ l, f a = some a) : l.filterMap f = l := by
  induction l with
  | nil => rfl
  | cons a t ih =>
    rw [List.filterMap_cons, h a (by simp)]
    rw [ih (fun x hx => h x (by simp [hx]))]

lemma filterMap_all_some_of_length_eq {α β : Type} {f : α → Option β}
    {l : List α} (h : (l.filterMap f).length = l.length) :
    ∀ a ∈ l, ∃ b, f a = some b ∧ b ∈ l.filterMap f := by
  induction l with
  | nil => simp
  | cons a t ih =>
    rw [List.filterMap_cons] at h ⊢
    cases hfa : f a with
    | none =>
      rw [hfa] at h
      simp only [List.length_cons] at h
      have := List.length_filterMap_le f t
      omega
    | some b =>
      rw [hfa] at h
      simp only [List.length_cons] at h
      intro x hx
      rcases List.mem_cons.mp hx with rfl | hxt
      · exact ⟨b, hfa, by simp⟩
      · obtain ⟨c, hc, hcm⟩ := ih (by omega) x hxt
        exact ⟨c, hc, by simp [hcm]⟩

lemma length_prunePassList_le (base : List String) (gs : List PGroup) :
    (prunePassList base gs).length ≤ gs.length :=
  List.length_filterMap_le _ _

/-- After a pass that removes nothing, the state satisfies the invariant. -/
lemma prunePass_no_removal_inv {base : List String} {gs : List PGroup}
    (h : (prunePassList base gs).length = gs.length) :
    PrunedInv base (prunePassList base gs) := by
  intro g' hg'
  obtain ⟨g, hg, hstep⟩ := List.mem_filterMap.mp hg'
  obtain ⟨hname, hne, hsub⟩ := pruneGroupStep_eq_some hstep
  refine ⟨hne, ?_⟩
  intro p hp
  have hvt := hsub p hp
  unfold validTargetsOf at hvt
  rcases List.mem_append.mp hvt with hb | hn
  · exact Or.inl hb
  · right
    obtain ⟨g0, hg0, hg0n⟩ := List.mem_map.mp hn
    obtain ⟨b, hb, hbm⟩ := filterMap_all_some_of_length_eq h g0 hg0
    have := (pruneGroupStep_eq_some hb).1
    exact List.mem_map.mpr ⟨b, hbm, by rw [this, hg0n]⟩

lemma pruneAux_inv (base : List String) :
    ∀ (fuel : Nat) (gs : List PGroup), gs.length < fuel →
      PrunedInv base (pruneAux base fuel gs) := by
  intro fuel
  induction fuel with
  | zero => intro gs h; omega
  | succ n ih =>
    intro gs h
    unfold pruneAux
    by_cases heq : (prunePassList base gs).length = gs.length
    · rw [if_pos heq]
      exact prunePass_no_removal_inv heq
    · rw [if_neg heq]
      apply ih
      have := length_prunePassList_le base gs
      omega

/-- The output of `_prune_groups` satisfies the pruning invariant. -/
lemma pruneGroups_inv (base : List String) (gs : List PGroup) :
    PrunedInv base (pruneGroups base gs) :=
  pruneAux_inv base (gs.length + 1) gs (by omega)

/-- On a state satisfying the invariant, a pass is the identity. -/
lemma prunePass_of_inv {base : List String} {gs : List PGroup}
    (h : PrunedInv base gs) : prunePassList base gs = gs := by
  apply filterMap_eq_self_of_some
  intro g hg
  obtain ⟨hne, hsub⟩ := h g hg
  apply pruneGroupStep_eq_self hne
  intro p hp
  unfold validTargetsOf
  rcases hsub p hp with hb | hn
  · exact List.mem_append.mpr (Or.inl hb)
  · exact List.mem_append.mpr (Or.inr hn)

/-- On a state satisfying the invariant, the whole fixed point is the
identity. -/
lemma pruneGroups_of_inv {base : List String} {gs : List PGroup}
    (h : PrunedInv base gs) : pruneGroups base gs = gs := by
  unfold pruneGroups pruneAux
  rw [prunePass_of_inv h]
  simp

end Proxygen

namespace Proxygen

/-! ## Lemmas about the string primitives -/

lemma str_ext {a b : String} (h : a.data = b.data) : a = b := by
  cases a; cases b
  exact congrArg String.mk h

lemma str_data_append (a b : String) : (a ++ b).data = a.data ++ b.data := rfl

lemma splitChar_ne_nil (sep : Char) (l : List Char) : splitChar sep l ≠ [] := by
  cases l with
  | nil => simp [splitChar]
  | cons c cs =>
    unfold splitChar
    split
    · simp
    · cases h : splitChar sep cs <;> simp

lemma not_mem_of_mem_splitChar (sep : Char) :
    ∀ (l : List Char), ∀ p ∈ splitChar sep l, sep ∉ p := by
  intro l
  induction l with
  | nil =>
    intro p hp
    simp only [splitChar, List.mem_singleton] at hp
    subst hp; simp
  | cons c cs ih =>
    intro p hp
    unfold splitChar at hp
    by_cases hc : c = sep
    · rw [if_pos hc] at hp
      rcases List.mem_cons.mp hp with rfl | h
      · simp
      · exact ih p h
    · rw [if_neg hc] at hp
      cases hsplit : splitChar sep cs with
      | nil => exact absurd hsplit (splitChar_ne_nil sep cs)
      | cons p0 ps =>
        rw [hsplit] at hp
        rcases List.mem_cons.mp hp with rfl | h
        · intro hmem
          rcases List.mem_cons.mp hmem with h1 | h1
          · exact hc h1.symm
          · exact (ih p0 (by rw [hsplit]; simp)) h1
        · exact ih p (by rw [hsplit]; simp [h])

lemma splitChar_of_not_mem (sep : Char) :
    ∀ (l : List Char), sep ∉ l → splitChar sep l = [l] := by
  intro l
  induction l with
  | nil => intro _; rfl
  | cons c cs ih =>
    intro h
    have hc : ¬ c = sep := fun e => h (by rw [e]; exact List.mem_cons_self _ _)
    unfold splitChar
    rw [if_neg hc, ih (fun hm => h (List.mem_cons_of_mem c hm))]

lemma splitChar_append (sep : Char) :
    ∀ (x r : List Char), sep ∉ x →
      splitChar sep (x ++ sep :: r) = x :: splitChar sep r := by
  intro x
  induction x with
  | nil =>
    intro r _
    show splitChar sep (sep :: r) = [] :: splitChar sep r
    conv_lhs => rw [splitChar]
    rw [if_pos rfl]
  | cons c cs ih =>
    intro r h
    have hc : ¬ c = sep := fun e => h (by rw [e]; exact List.mem_cons_self _ _)
    show splitChar sep (c :: (cs ++ sep :: r)) = (c :: cs) :: splitChar sep r
    conv_lhs => rw [splitChar]
    rw [if_neg hc, ih r (fun hm => h (List.mem_cons_of_mem c hm))]

lemma splitComma_singleton {s : String} (h : ',' ∉ s.data) :
    splitComma s = [s] := by
  unfold splitComma
  rw [splitChar_of_not_mem ',' s.data h]
  rfl

lemma splitComma_joinComma :
    ∀ (L : List String), L ≠ [] → (∀ s ∈ L, ',' ∉ s.data) →
      splitComma (joinComma L) = L := by
  intro L
  induction L with
  | nil => intro h; exact absurd rfl h
  | cons s t ih =>
    intro _ hcf
    cases t with
    | nil => exact splitComma_singleton (hcf s (by simp))
    | cons u v =>
      show splitComma (s ++ "," ++ joinComma (u :: v)) = s :: u :: v
      have hdata : (s ++ "," ++ joinComma (u :: v)).data =
          s.data ++ ',' :: (joinComma (u :: v)).data := by
        rw [str_data_append, str_data_append]
        simp
      unfold splitComma
      rw [hdata, splitChar_append ',' s.data _ (hcf s (by simp))]
      have : (splitChar ',' (joinComma (u :: v)).data).map
          (fun l => (⟨l⟩ : String)) = splitComma (joinComma (u :: v)) := rfl
      rw [List.map_cons, this, ih (by simp) (fun x hx => hcf x (by simp [hx]))]

lemma joinComma_snoc :
    ∀ (L : List String) (s : String), L ≠ [] →
      joinComma L ++ "," ++ s = joinComma (L ++ [s]) := by
  intro L
  induction L with
  | nil => intro s h; exact absurd rfl h
  | cons x t ih =>
    intro s _
    cases t with
    | nil => rfl
    | cons y v =>
      show (x ++ "," ++ joinComma (y :: v)) ++ "," ++ s =
        x ++ "," ++ joinComma ((y :: v) ++ [s])
      rw [← ih s (by simp)]
      apply str_ext
      simp [str_data_append]

lemma parts_ne_nil (s : String) : (splitComma s).map trimStr ≠ [] := by
  intro h
  rw [List.map_eq_nil_iff] at h
  unfold splitComma at h
  rw [List.map_eq_nil_iff] at h
  exact splitChar_ne_nil ',' s.data h

/-! ### Strip lemmas -/

lemma dropWhile_dropWhile (p : Char → Bool) :
    ∀ l : List Char, (l.dropWhile p).dropWhile p = l.dropWhile p := by
  intro l
  induction l with
  | nil => rfl
  | cons c cs ih =>
    by_cases hp : p c = true
    · simp [List.dropWhile_cons, hp, ih]
    · simp [List.dropWhile_cons, hp]

lemma length_dropWhile_le' (p : Char → Bool) :
    ∀ l : List Char, (l.dropWhile p).length ≤ l.length := by
  intro l
  induction l with
  | nil => simp
  | cons c cs ih =>
    by_cases hp : p c = true
    · simp only [List.dropWhile_cons, hp, if_true]
      calc (cs.dropWhile p).length ≤ cs.length := ih
        _ ≤ (c :: cs).length := by simp
    · simp [List.dropWhile_cons, hp]

lemma head_false_of_dropWhile_self {p : Char → Bool} {c : Char} {u : List Char}
    (h : (c :: u).dropWhile p = c :: u) : p c = false := by
  cases hp : p c with
  | false => rfl
  | true =>
    rw [List.dropWhile_cons, if_pos hp] at h
    have hlen := congrArg List.length h
    have := length_dropWhile_le' p u
    simp at hlen
    omega

lemma dropTrail_decomp (p : Char → Bool) (l : List Char) :
    ∃ t, l = dropTrail p l ++ t := by
  refine ⟨(l.reverse.takeWhile p).reverse, ?_⟩
  unfold dropTrail
  have h := congrArg List.reverse
    (@List.takeWhile_append_dropWhile _ p l.reverse)
  rw [List.reverse_append, List.reverse_reverse] at h
  exact h.symm

lemma dropWhile_dropTrail_of_self {p : Char → Bool} {l : List Char}
    (h : l.dropWhile p = l) :
    (dropTrail p l).dropWhile p = dropTrail p l := by
  obtain ⟨t, ht⟩ := dropTrail_decomp p l
  cases hc : dropTrail p l with
  | nil => rfl
  | cons c u =>
    have hl : l = c :: (u ++ t) := by rw [ht, hc]; simp
    have hpc : p c = false := by
      rw [hl] at h
      exact head_false_of_dropWhile_self h
    rw [List.dropWhile_cons, hpc]
    simp

lemma trimChars_idem (l : List Char) : trimChars (trimChars l) = trimChars l := by
  unfold trimChars
  rw [dropWhile_dropTrail_of_self (dropWhile_dropWhile isSpaceChar l)]
  unfold dropTrail
  rw [List.reverse_reverse, dropWhile_dropWhile]

lemma trimStr_idem (s : String) : trimStr (trimStr s) = trimStr s := by
  show (⟨trimChars (trimChars s.data)⟩ : String) = ⟨trimChars s.data⟩
  rw [trimChars_idem]

lemma mem_of_mem_dropWhile {p : Char → Bool} {a : Char} {l : List Char}
    (h : a ∈ l.dropWhile p) : a ∈ l := by
  have h2 := @List.takeWhile_append_dropWhile _ p l
  rw [← h2]
  exact List.mem_append.mpr (Or.inr h)

lemma mem_of_mem_trimChars {a : Char} {l : List Char}
    (h : a ∈ trimChars l) : a ∈ l := by
  unfold trimChars dropTrail at h
  have h1 := List.mem_reverse.mp h
  have h2 := mem_of_mem_dropWhile h1
  have h3 := List.mem_reverse.mp h2
  exact mem_of_mem_dropWhile h3

lemma not_comma_trimStr {s : String} (h : ',' ∉ s.data) :
    ',' ∉ (trimStr s).data :=
  fun hm => h (mem_of_mem_trimChars hm)

/-- Every element of the stripped comma split of a string is comma-free and
fixed by stripping. -/
lemma parts_spec (rule : String) :
    ∀ x ∈ (splitComma rule).map trimStr, ',' ∉ x.data ∧ trimStr x = x := by
  intro x hx
  obtain ⟨y, hy, rfl⟩ := List.mem_map.mp hx
  obtain ⟨ly, hly, rfl⟩ := List.mem_map.mp hy
  exact ⟨not_comma_trimStr (not_mem_of_mem_splitChar ',' rule.data ly hly),
    trimStr_idem _⟩

lemma map_trim_of_fixed {L : List String} (h : ∀ s ∈ L, trimStr s = s) :
    L.map trimStr = L := by
  induction L with
  | nil => rfl
  | cons s t ih =>
    rw [List.map_cons, h s (by simp), ih (fun x hx => h x (by simp [hx]))]

/-- `ruleTargetOf` of a comma join of clean parts is the grammar target of
that part list. -/
lemma ruleTargetOf_joinComma (L : List String) (hne : L ≠ [])
    (hcf : ∀ s ∈ L, ',' ∉ s.data) (htf : ∀ s ∈ L, trimStr s = s) :
    ruleTargetOf (joinComma L) =
      (if L.headD "" = "MATCH" then
        if L.length ≥ 2 then some (L.getD 1 "") else none
      else if L.length ≥ 3 then some (L.getD 2 "") else none) := by
  unfold ruleTargetOf
  rw [splitComma_joinComma L hne hcf, map_trim_of_fixed htf]

lemma mem_of_mem_dropLast {α : Type} {a : α} :
    ∀ {l : List α}, a ∈ l.dropLast → a ∈ l := by
  intro l
  induction l with
  | nil => intro h; simp at h
  | cons x t ih =>
    intro h
    cases t with
    | nil => simp at h
    | cons y v =>
      rw [List.dropLast_cons₂] at h
      rcases List.mem_cons.mp h with rfl | h2
      · simp
      · exact List.mem_cons_of_mem x (ih h2)

/-! ### The expanded-rule grammar target -/

/-- `expandLine` in `','.join` form, `no-resolve` branch. -/
lemma expandLine_eq_joinComma_nr (line target : String)
    (hnr : lowerStr (((splitComma line).map trimStr).getLastD "") = "no-resolve")
    (hcore : ((splitComma line).map trimStr).dropLast ≠ []) :
    expandLine target line =
      joinComma (((splitComma line).map trimStr).dropLast ++ [target, "no-resolve"]) := by
  unfold expandLine
  rw [if_pos hnr]
  rw [joinComma_snoc _ target hcore]
  have h2 : joinComma (((splitComma line).map trimStr).dropLast ++ [target]) ++ ",no-resolve"
      = joinComma (((splitComma line).map trimStr).dropLast ++ [target]) ++ "," ++ "no-resolve" := by
    apply str_ext
    simp [str_data_append]
  rw [h2, joinComma_snoc _ "no-resolve" (by simp)]
  congr 1
  simp

/-- `expandLine` in `','.join` form, plain branch. -/
lemma expandLine_eq_joinComma (line target : String)
    (hnr : ¬ lowerStr (((splitComma line).map trimStr).getLastD "") = "no-resolve") :
    expandLine target line =
      joinComma (((splitComma line).map trimStr) ++ [target]) := by
  unfold expandLine
  rw [if_neg hnr]
  exact joinComma_snoc _ target (parts_ne_nil line)

/-- The central rule-set closure property: expanding a well-formed provider
line against a target puts that very target (or nothing) in the
grammar-target position of the expanded rule. -/
lemma ruleTargetOf_expandLine (line target : String)
    (hwf : wellFormedProviderLineB line = true)
    (hc : ',' ∉ target.data) (ht : trimStr target = target) :
    ruleTargetOf (expandLine target line) = none ∨
      ruleTargetOf (expandLine target line) = some target := by
  have hq := parts_spec line
  simp only [wellFormedProviderLineB] at hwf
  by_cases hnr : lowerStr (((splitComma line).map trimStr).getLastD "") = "no-resolve"
  · -- `no-resolve` popped: core is the dropLast of the parts
    rw [beq_iff_eq.mpr hnr |> if_pos] at hwf
    rw [Bool.and_eq_true] at hwf
    obtain ⟨hne1, hshape⟩ := hwf
    have hcorene : ((splitComma line).map trimStr).dropLast ≠ [] := by
      intro h0
      rw [h0] at hne1
      simp at hne1
    rw [expandLine_eq_joinComma_nr line target hnr hcorene]
    by_cases hm : ((splitComma line).map trimStr).dropLast.headD "" = "MATCH"
    · rw [if_pos (beq_iff_eq.mpr hm)] at hshape
      have hlen : ((splitComma line).map trimStr).dropLast.length = 1 := by
        simpa using hshape
      obtain ⟨a, ha⟩ := List.length_eq_one.mp hlen
      rw [ha] at hm ⊢
      have ha' : a = "MATCH" := by simpa using hm
      subst ha'
      right
      rw [show (["MATCH"] ++ [target, "no-resolve"]) = ["MATCH", target, "no-resolve"] by simp]
      rw [ruleTargetOf_joinComma ["MATCH", target, "no-resolve"] (by simp)
        (by
          intro s hs
          rcases List.mem_cons.mp hs with rfl | hs
          · decide
          rcases List.mem_cons.mp hs with rfl | hs
          · exact hc
          rcases List.mem_cons.mp hs with rfl | hs
          · decide
          · simp at hs)
        (by
          intro s hs
          rcases List.mem_cons.mp hs with rfl | hs
          · decide
          rcases List.mem_cons.mp hs with rfl | hs
          · exact ht
          rcases List.mem_cons.mp hs with rfl | hs
          · decide
          · simp at hs)]
      rw [if_pos (by rfl)]
      rw [if_pos (by simp)]
      rfl
    · have hmb : (((splitComma line).map trimStr).dropLast.headD "" == "MATCH") = false := by
        cases hb : (((splitComma line).map trimStr).dropLast.headD "" == "MATCH") with
        | false => rfl
        | true => exact absurd (beq_iff_eq.mp hb) hm
      rw [hmb, if_neg (by simp)] at hshape
      rw [show (lowerStr (((splitComma line).map trimStr).getLastD "") == "no-resolve") = true
        from beq_iff_eq.mpr hnr] at hshape
      have hlen : ((splitComma line).map trimStr).dropLast.length = 2 := by
        simpa using hshape
      obtain ⟨a, b, hab⟩ := List.length_eq_two.mp hlen
      have hmem : ∀ s ∈ ((splitComma line).map trimStr).dropLast,
          ',' ∉ s.data ∧ trimStr s = s :=
        fun s hs => hq s (mem_of_mem_dropLast hs)
      rw [hab] at hm hmem ⊢
      have hamem := hmem a (by simp)
      have hbmem := hmem b (by simp)
      have hane : a ≠ "MATCH" := by simpa using hm
      right
      rw [show ([a, b] ++ [target, "no-resolve"]) = [a, b, target, "no-resolve"] by simp]
      rw [ruleTargetOf_joinComma [a, b, target, "no-resolve"] (by simp)
        (by
          intro s hs
          rcases List.mem_cons.mp hs with rfl | hs
          · exact hamem.1
          rcases List.mem_cons.mp hs with rfl | hs
          · exact hbmem.1
          rcases List.mem_cons.mp hs with rfl | hs
          · exact hc
          rcases List.mem_cons.mp hs with rfl | hs
          · decide
          · simp at hs)
        (by
          intro s hs
          rcases List.mem_cons.mp hs with rfl | hs
          · exact hamem.2
          rcases List.mem_cons.mp hs with rfl | hs
          · exact hbmem.2
          rcases List.mem_cons.mp hs with rfl | hs
          · exact ht
          rcases List.mem_cons.mp hs with rfl | hs
          · decide
          · simp at hs)]
      rw [if_neg (by simpa using hane)]
      rw [if_pos (by simp)]
      rfl
  · -- no `no-resolve` suffix: core is the whole part list
    have hnrb : (lowerStr (((splitComma line).map trimStr).getLastD "") == "no-resolve") = false := by
      cases hb : (lowerStr (((splitComma line).map trimStr).getLastD "") == "no-resolve") with
      | false => rfl
      | true => exact absurd (beq_iff_eq.mp hb) hnr
    rw [hnrb, if_neg (by simp)] at hwf
    rw [Bool.and_eq_true] at hwf
    obtain ⟨hne1, hshape⟩ := hwf
    rw [expandLine_eq_joinComma line target hnr]
    by_cases hm : ((splitComma line).map trimStr).headD "" = "MATCH"
    · rw [if_pos (beq_iff_eq.mpr hm)] at hshape
      have hlen : ((splitComma line).map trimStr).length = 1 := by
        simpa using hshape
      obtain ⟨a, ha⟩ := List.length_eq_one.mp hlen
      rw [ha] at hm ⊢
      have ha' : a = "MATCH" := by simpa using hm
      subst ha'
      right
      rw [show (["MATCH"] ++ [target]) = ["MATCH", target] by simp]
      rw [ruleTargetOf_joinComma ["MATCH", target] (by simp)
        (by
          intro s hs
          rcases List.mem_cons.mp hs with rfl | hs
          · decide
          rcases List.mem_cons.mp hs with rfl | hs
          · exact hc
          · simp at hs)
        (by
          intro s hs
          rcases List.mem_cons.mp hs with rfl | hs
          · decide
          rcases List.mem_cons.mp hs with rfl | hs
          · exact ht
          · simp at hs)]
      rw [if_pos (by rfl)]
      rw [if_pos (by simp)]
      rfl
    · have hmb : (((splitComma line).map trimStr).headD "" == "MATCH") = false := by
        cases hb : (((splitComma line).map trimStr).headD "" == "MATCH") with
        | false => rfl
        | true => exact absurd (beq_iff_eq.mp hb) hm
      rw [hmb, if_neg (by simp)] at hshape
      rw [Bool.or_eq_true] at hshape
      rcases hshape with hlen2 | hlen1
      · -- two payload fields: the target lands in third position
        have hlen : ((splitComma line).map trimStr).length = 2 := by
          simpa using hlen2
        obtain ⟨a, b, hab⟩ := List.length_eq_two.mp hlen
        have hamem := hq a (by rw [hab]; simp)
        have hbmem := hq b (by rw [hab]; simp)
        rw [hab] at hm ⊢
        have hane : a ≠ "MATCH" := by simpa using hm
        right
        rw [show ([a, b] ++ [target]) = [a, b, target] by simp]
        rw [ruleTargetOf_joinComma [a, b, target] (by simp)
          (by
            intro s hs
            rcases List.mem_cons.mp hs with rfl | hs
            · exact hamem.1
            rcases List.mem_cons.mp hs with rfl | hs
            · exact hbmem.1
            rcases List.mem_cons.mp hs with rfl | hs
            · exact hc
            · simp at hs)
          (by
            intro s hs
            rcases List.mem_cons.mp hs with rfl | hs
            · exact hamem.2
            rcases List.mem_cons.mp hs with rfl | hs
            · exact hbmem.2
            rcases List.mem_cons.mp hs with rfl | hs
            · exact ht
            · simp at hs)]
        rw [if_neg (by simpa using hane)]
        rw [if_pos (by simp)]
        rfl
      · -- one payload field, no suffix: the expanded rule has only two
        -- fields and carries no determinable target
        rw [Bool.and_eq_true] at hlen1
        have hlen : ((splitComma line).map trimStr).length = 1 := by
          simpa using hlen1.1
        obtain ⟨a, ha⟩ := List.length_eq_one.mp hlen
        have hamem := hq a (by rw [ha]; simp)
        rw [ha] at hm ⊢
        have hane : a ≠ "MATCH" := by simpa using hm
        left
        rw [show ([a] ++ [target]) = [a, target] by simp]
        rw [ruleTargetOf_joinComma [a, target] (by simp)
          (by
            intro s hs
            rcases List.mem_cons.mp hs with rfl | hs
            · exact hamem.1
            rcases List.mem_cons.mp hs with rfl | hs
            · exact hc
            · simp at hs)
          (by
            intro s hs
            rcases List.mem_cons.mp hs with rfl | hs
            · exact hamem.2
            rcases List.mem_cons.mp hs with rfl | hs
            · exact ht
            · simp at hs)]
        rw [if_neg (by simpa using hane)]
        rw [if_neg (by simp)]

/-- Every rule emitted by `processRule` whose grammar target is determined
carries either the empty target (Python truthiness leniency) or a valid
target — provided all provider lines are well formed. -/
lemma processRule_closure (lp : String → List String)
    (providers : List (String × RuleProvider)) (vt : List String) (rule : String)
    (hwf : ∀ path line, line ∈ lp path → wellFormedProviderLineB line = true) :
    ∀ r ∈ processRule lp providers vt rule, ∀ t,
      ruleTargetOf r = some t → t = "" ∨ t ∈ vt := by
  intro r hr t htr
  simp only [processRule] at hr
  by_cases hblank : trimStr rule = ""
  · rw [if_pos hblank] at hr
    simp at hr
  · rw [if_neg hblank] at hr
    by_cases hrs : ((splitComma rule).map trimStr).headD "" = "RULE-SET"
    · rw [if_pos hrs] at hr
      by_cases hlen : ((splitComma rule).map trimStr).length < 3
      · rw [if_pos hlen] at hr
        simp at hr
      · rw [if_neg hlen] at hr
        cases hct : vt.contains (((splitComma rule).map trimStr).getD 2 "") with
        | false =>
          rw [hct] at hr
          simp at hr
        | true =>
          rw [hct] at hr
          simp only [Bool.not_true, Bool.false_eq_true, if_false] at hr
          cases hlook : providers.lookup (((splitComma rule).map trimStr).getD 1 "") with
          | none =>
            rw [hlook] at hr
            simp at hr
          | some provider =>
            rw [hlook] at hr
            simp only [expandRuleSet] at hr
            by_cases hpath : provider.path = ""
            · rw [if_pos hpath] at hr
              simp at hr
            · rw [if_neg hpath] at hr
              obtain ⟨line, hline, rfl⟩ := List.mem_map.mp hr
              have hwfl := hwf provider.path line hline
              have htmem : ((splitComma rule).map trimStr).getD 2 "" ∈
                  (splitComma rule).map trimStr := by
                rw [List.getD_eq_getElem _ _ (by omega)]
                exact List.getElem_mem _
              obtain ⟨hcf, htf⟩ := parts_spec rule _ htmem
              rcases ruleTargetOf_expandLine line _ hwfl hcf htf with hnone | hsome
              · rw [hnone] at htr
                exact Option.noConfusion htr
              · rw [hsome] at htr
                obtain rfl := Option.some.inj htr
                exact Or.inr (contains_iff_mem.mp hct)
    · rw [if_neg hrs] at hr
      cases hto : ruleTargetOf rule with
      | none =>
        rw [hto] at hr
        obtain rfl : r = rule := by simpa using hr
        rw [hto] at htr
        exact Option.noConfusion htr
      | some t' =>
        rw [hto] at hr
        dsimp only at hr
        by_cases ht' : t' = ""
        · rw [if_pos ht'] at hr
          obtain rfl : r = rule := by simpa using hr
          rw [hto] at htr
          obtain rfl := Option.some.inj htr
          exact Or.inl ht'
        · rw [if_neg ht'] at hr
          cases hvt : vt.contains t' with
          | false =>
            rw [hvt] at hr
            simp at hr
          | true =>
            rw [hvt] at hr
            obtain rfl : r = rule := by simpa using hr
            rw [hto] at htr
            obtain rfl := Option.some.inj htr
            exact Or.inr (contains_iff_mem.mp hvt)

end Proxygen

namespace Proxygen

/-! ## Claim theorems -/

/-- `_process_groups` as the pruning of the routed active-group map. -/
lemma processGroups_eq (templates : List GroupTemplate) (o p : List String) :
    processGroups templates o p =
      pruneGroups (p ++ builtIns)
        (routeUnclassified (buildActiveGroups templates o p).1
          (o.filter (fun x => !((buildActiveGroups templates o p).2.contains x)))) := rfl

/-! ### Lemmas about the active-group map -/

lemma map_name_dictInsert (gs : List PGroup) (g : PGroup) :
    (dictInsertGroup gs g).map (fun h => h.name) =
      if gs.any (fun h => h.name = g.name) then gs.map (fun h => h.name)
      else gs.map (fun h => h.name) ++ [g.name] := by
  unfold dictInsertGroup
  by_cases hc : gs.any (fun h => h.name = g.name) = true
  · rw [if_pos hc, if_pos hc, List.map_map]
    apply List.map_congr_left
    intro h _
    by_cases hn : h.name = g.name
    · simp [hn]
    · simp [hn]
  · rw [if_neg hc, if_neg hc, List.map_append]
    rfl

lemma nodup_names_dictInsert {gs : List PGroup} (g : PGroup)
    (h : (gs.map (fun h => h.name)).Nodup) :
    ((dictInsertGroup gs g).map (fun h => h.name)).Nodup := by
  rw [map_name_dictInsert]
  split
  · exact h
  · rename_i hany
    rw [List.nodup_append]
    refine ⟨h, List.nodup_singleton _, ?_⟩
    intro x hx hx2
    rw [List.mem_singleton] at hx2
    subst hx2
    obtain ⟨h0, hh0, hh0n⟩ := List.mem_map.mp hx
    apply hany
    rw [List.any_eq_true]
    exact ⟨h0, hh0, by simp [hh0n]⟩

lemma nodup_names_buildFold (o p : List String) :
    ∀ (ts : List GroupTemplate) (acc : List PGroup × List String),
      (acc.1.map (fun h => h.name)).Nodup →
      ((ts.foldl (buildStep o p) acc).1.map (fun h => h.name)).Nodup := by
  intro ts
  induction ts with
  | nil => intro acc h; exact h
  | cons t ts ih =>
    intro acc h
    rw [List.foldl_cons]
    exact ih _ (nodup_names_dictInsert _ h)

lemma map_name_routeUnclassified (active : List PGroup) (uncl : List String) :
    (routeUnclassified active uncl).map (fun h => h.name) =
      active.map (fun h => h.name) := by
  unfold routeUnclassified
  split
  · rfl
  · split
    · rw [List.map_map]
      apply List.map_congr_left
      intro h _
      by_cases hn : h.name = "PROXY" <;> simp [hn]
    · rfl

lemma map_name_filterMap_sublist (vt : List String) :
    ∀ gs : List PGroup,
      ((gs.filterMap (pruneGroupStep vt)).map (fun h => h.name)).Sublist
        (gs.map (fun h => h.name)) := by
  intro gs
  induction gs with
  | nil => simp
  | cons g t ih =>
    rw [List.filterMap_cons]
    cases hstep : pruneGroupStep vt g with
    | none =>
      simp only [List.map_cons]
      exact ih.cons _
    | some b =>
      simp only [List.map_cons]
      rw [(pruneGroupStep_eq_some hstep).1]
      exact ih.cons₂ _

lemma nodup_names_pruneAux (base : List String) :
    ∀ (fuel : Nat) (gs : List PGroup),
      (gs.map (fun h => h.name)).Nodup →
      ((pruneAux base fuel gs).map (fun h => h.name)).Nodup := by
  intro fuel
  induction fuel with
  | zero => intro gs h; exact h
  | succ n ih =>
    intro gs h
    simp only [pruneAux]
    have hsub : ((prunePassList base gs).map (fun h => h.name)).Sublist
        (gs.map (fun h => h.name)) :=
      map_name_filterMap_sublist _ gs
    split
    · exact hsub.nodup h
    · exact ih _ (hsub.nodup h)

lemma names_buildFold_sub (o p : List String) :
    ∀ (ts : List GroupTemplate) (acc : List PGroup × List String) (n : String),
      n ∈ (ts.foldl (buildStep o p) acc).1.map (fun h => h.name) →
      n ∈ acc.1.map (fun h => h.name) ∨ n ∈ ts.map (fun t => t.name) := by
  intro ts
  induction ts with
  | nil => intro acc n h; exact Or.inl h
  | cons t ts ih =>
    intro acc n h
    rw [List.foldl_cons] at h
    rcases ih _ n h with h1 | h2
    · rw [show (buildStep o p acc t).1 = dictInsertGroup acc.1 _ from rfl,
        map_name_dictInsert] at h1
      split at h1
      · exact Or.inl h1
      · rcases List.mem_append.mp h1 with ha | hb
        · exact Or.inl ha
        · rw [List.mem_singleton] at hb
          subst hb
          exact Or.inr (by simp)
    · exact Or.inr (by simp [h2])

lemma routeUnclassified_no_proxy {active : List PGroup} {uncl : List String}
    (h : ∀ g ∈ active, g.name ≠ "PROXY") :
    routeUnclassified active uncl = active := by
  unfold routeUnclassified
  split
  · rfl
  · rw [if_neg ?_]
    rw [List.any_eq_true]
    rintro ⟨g, hg, hgp⟩
    exact h g hg (by simpa using hgp)

/-- C1 (amended): group synthesis followed by rule synthesis is
referentially closed and produces no empty group — with two leniencies the
code actually has: a surviving rule's determinable target may also be the
empty string (Python truthiness skips the check), and rule-set expansion
preserves closure only when every provider line is well formed (a provider
line carrying three or more fields, or a `MATCH` line with an argument,
re-positions the grammar target; see the counterexample). -/
theorem claim1_referential_closure (templates : List GroupTemplate)
    (orderedProxyNames : List String) (rulesData : RulesData)
    (loadProvider : String → List String)
    (hwf : ∀ path line, line ∈ loadProvider path →
      wellFormedProviderLineB line = true) :
    (∀ g ∈ processGroups templates orderedProxyNames orderedProxyNames,
      g.proxies ≠ [] ∧
      ∀ p ∈ g.proxies,
        p ∈ orderedProxyNames ∨
        p ∈ (processGroups templates orderedProxyNames orderedProxyNames).map
              (fun h => h.name) ∨
        p ∈ builtIns) ∧
    (∀ r ∈ processRules loadProvider rulesData
        (rulesValidTargets orderedProxyNames
          (processGroups templates orderedProxyNames orderedProxyNames)),
      ∀ t, ruleTargetOf r = some t →
        t = "" ∨ t ∈ rulesValidTargets orderedProxyNames
          (processGroups templates orderedProxyNames orderedProxyNames)) := by
  constructor
  · intro g hg
    rw [processGroups_eq] at hg
    obtain ⟨hne, hsub⟩ := pruneGroups_inv (orderedProxyNames ++ builtIns) _ g hg
    refine ⟨hne, ?_⟩
    intro p hp
    rcases hsub p hp with hb | hn
    · rcases List.mem_append.mp hb with h1 | h2
      · exact Or.inl h1
      · exact Or.inr (Or.inr h2)
    · rw [processGroups_eq]
      exact Or.inr (Or.inl hn)
  · intro r hr t htr
    unfold processRules at hr
    obtain ⟨rule, hrule, hmem⟩ := List.mem_flatMap.mp hr
    exact processRule_closure loadProvider rulesData.ruleProviders _ rule hwf
      r hmem t htr

/-- Witness for C1 at a concrete instance: one `PROXY` group, one proxy,
one `MATCH` rule, a provider collaborator returning no lines. -/
theorem claim1_referential_closure_witness :
    (∀ path line, line ∈ (fun (_ : String) => ([] : List String)) path →
      wellFormedProviderLineB line = true) ∧
    ((∀ g ∈ processGroups [⟨"PROXY", "select", [], none, none, none, none, false⟩]
        ["P1"] ["P1"],
      g.proxies ≠ [] ∧
      ∀ p ∈ g.proxies,
        p ∈ ["P1"] ∨
        p ∈ (processGroups [⟨"PROXY", "select", [], none, none, none, none, false⟩]
              ["P1"] ["P1"]).map (fun h => h.name) ∨
        p ∈ builtIns) ∧
    (∀ r ∈ processRules (fun _ => []) ⟨[], ["MATCH,PROXY"]⟩
        (rulesValidTargets ["P1"]
          (processGroups [⟨"PROXY", "select", [], none, none, none, none, false⟩]
            ["P1"] ["P1"])),
      ∀ t, ruleTargetOf r = some t →
        t = "" ∨ t ∈ rulesValidTargets ["P1"]
          (processGroups [⟨"PROXY", "select", [], none, none, none, none, false⟩]
            ["P1"] ["P1"]))) :=
  ⟨fun _ line h => absurd h (List.not_mem_nil line),
   claim1_referential_closure
     [⟨"PROXY", "select", [], none, none, none, none, false⟩] ["P1"]
     ⟨[], ["MATCH,PROXY"]⟩ (fun _ => [])
     (fun _ line h => absurd h (List.not_mem_nil line))⟩

/-- Counterexample to C1 as stated, on its rule-closure half. Two concrete
violations: (i) the kept rule `"DOMAIN,example.com,"` has determinable
target `""` ∉ valid targets (Python's `if target:` treats it as absent);
(ii) with provider line `"DOMAIN,example.com,EVIL"`, the expansion of
`RULE-SET,pr,DIRECT` emits `"DOMAIN,example.com,EVIL,DIRECT"` whose
third-field target `EVIL` resolves to nothing. -/
theorem claim1_counterexample :
    (processRules (fun _ => []) ⟨[], ["DOMAIN,example.com,"]⟩
        (rulesValidTargets [] (processGroups [] [] [])) =
      ["DOMAIN,example.com,"] ∧
     ruleTargetOf "DOMAIN,example.com," = some "" ∧
     "" ∉ rulesValidTargets [] (processGroups [] [] [])) ∧
    (processRules (fun p => if p = "f" then ["DOMAIN,example.com,EVIL"] else [])
        ⟨[("pr", ⟨"yaml", "f"⟩)], ["RULE-SET,pr,DIRECT"]⟩
        (rulesValidTargets [] (processGroups [] [] [])) =
      ["DOMAIN,example.com,EVIL,DIRECT"] ∧
     ruleTargetOf "DOMAIN,example.com,EVIL,DIRECT" = some "EVIL" ∧
     "EVIL" ∉ rulesValidTargets [] (processGroups [] [] [])) := by
  refine ⟨⟨by decide, by decide, by decide⟩, ⟨by decide, by decide, by decide⟩⟩

/-- C6 (amended): a non-blank, non-`RULE-SET` rule is kept verbatim iff its
grammar target is undetermined, *empty* (Python truthiness), or valid;
otherwise it is dropped (the output is `[rule]` or `[]`, nothing else). -/
theorem claim6_plain_rule_filter (lp : String → List String)
    (providers : List (String × RuleProvider)) (vt : List String)
    (rule : String) (hblank : trimStr rule ≠ "")
    (hrs : ((splitComma rule).map trimStr).headD "" ≠ "RULE-SET") :
    (processRule lp providers vt rule = [rule] ↔
      (ruleTargetOf rule = none ∨ ruleTargetOf rule = some "" ∨
        ∃ t, ruleTargetOf rule = some t ∧ t ∈ vt)) ∧
    (processRule lp providers vt rule = [rule] ∨
      processRule lp providers vt rule = []) := by
  simp only [processRule]
  rw [if_neg hblank, if_neg hrs]
  cases hto : ruleTargetOf rule with
  | none =>
    dsimp only
    exact ⟨⟨fun _ => Or.inl rfl, fun _ => rfl⟩, Or.inl rfl⟩
  | some t' =>
    dsimp only
    by_cases ht' : t' = ""
    · rw [if_pos ht']
      subst ht'
      exact ⟨⟨fun _ => Or.inr (Or.inl rfl), fun _ => rfl⟩, Or.inl rfl⟩
    · rw [if_neg ht']
      cases hvt : vt.contains t' with
      | true =>
        refine ⟨⟨fun _ => Or.inr (Or.inr ⟨t', rfl, contains_iff_mem.mp hvt⟩),
          fun _ => rfl⟩, Or.inl rfl⟩
      | false =>
        constructor
        · constructor
          · intro h
            exact absurd h (by simp)
          · intro h
            rcases h with h | h | ⟨t, ht, htv⟩
            · exact Option.noConfusion h
            · exact absurd (Option.some.inj h) ht'
            · obtain rfl := Option.some.inj ht
              rw [contains_iff_mem.mpr htv] at hvt
              exact Bool.noConfusion hvt
        · exact Or.inr rfl

/-- Witness for C6 at the concrete rule `"MATCH,PROXY"` against valid
targets `["PROXY"]`. -/
theorem claim6_plain_rule_filter_witness :
    (trimStr "MATCH,PROXY" ≠ "" ∧
     ((splitComma "MATCH,PROXY").map trimStr).headD "" ≠ "RULE-SET") ∧
    ((processRule (fun _ => []) [] ["PROXY"] "MATCH,PROXY" = ["MATCH,PROXY"] ↔
      (ruleTargetOf "MATCH,PROXY" = none ∨
        ruleTargetOf "MATCH,PROXY" = some "" ∨
        ∃ t, ruleTargetOf "MATCH,PROXY" = some t ∧ t ∈ ["PROXY"])) ∧
     (processRule (fun _ => []) [] ["PROXY"] "MATCH,PROXY" = ["MATCH,PROXY"] ∨
      processRule (fun _ => []) [] ["PROXY"] "MATCH,PROXY" = [])) :=
  ⟨⟨by decide, by decide⟩,
   claim6_plain_rule_filter (fun _ => []) [] ["PROXY"] "MATCH,PROXY"
     (by decide) (by decide)⟩

/-- Counterexample to C6 as stated: the rule `"DOMAIN,example.com,"` has a
determinable third field, the empty string, which is not in the valid
target set — the claim says the rule is dropped, but the code keeps it
(Python's `if target:` treats the empty target as absent). -/
theorem claim6_counterexample :
    processRule (fun _ => []) [] ["DIRECT"] "DOMAIN,example.com," =
      ["DOMAIN,example.com,"] ∧
    ruleTargetOf "DOMAIN,example.com," = some "" ∧
    "" ∉ ["DIRECT"] := by
  refine ⟨by decide, by decide, by decide⟩

/-- C7: rule-provider expansion binds each line to the target and
re-attaches a trailing case-insensitive `no-resolve` flag after the target;
on the scenario's provider file the expansion is exactly as specified, and
in general the expanded rule re-splits into the popped line fields, the
target, then `no-resolve`. -/
theorem claim7_ruleset_expansion :
    (expandRuleSet
        (fun p => if p = "site.list" then
          ["DOMAIN,example.com", "DOMAIN,example.org,no-resolve"] else [])
        ⟨"http", "site.list"⟩ "PROXY" =
      ["DOMAIN,example.com,PROXY", "DOMAIN,example.org,PROXY,no-resolve"]) ∧
    (∀ line target : String, ',' ∉ target.data →
      lowerStr (((splitComma line).map trimStr).getLastD "") = "no-resolve" →
      ((splitComma line).map trimStr).dropLast ≠ [] →
      splitComma (expandLine target line) =
        ((splitComma line).map trimStr).dropLast ++ [target, "no-resolve"]) := by
  constructor
  · decide
  · intro line target hct hnr hne
    rw [expandLine_eq_joinComma_nr line target hnr hne]
    apply splitComma_joinComma _ (by simp)
    intro s hs
    rcases List.mem_append.mp hs with hs | hs
    · exact (parts_spec line s (mem_of_mem_dropLast hs)).1
    rcases List.mem_cons.mp hs with rfl | hs
    · exact hct
    rcases List.mem_cons.mp hs with rfl | hs
    · decide
    · simp at hs

/-- Witness for C7's general part at the scenario's `no-resolve` line. -/
theorem claim7_ruleset_expansion_witness :
    (',' ∉ "PROXY".data ∧
     lowerStr (((splitComma "DOMAIN,example.org,no-resolve").map trimStr).getLastD "") =
       "no-resolve" ∧
     ((splitComma "DOMAIN,example.org,no-resolve").map trimStr).dropLast ≠ []) ∧
    splitComma (expandLine "PROXY" "DOMAIN,example.org,no-resolve") =
      ((splitComma "DOMAIN,example.org,no-resolve").map trimStr).dropLast ++
        ["PROXY", "no-resolve"] :=
  ⟨⟨by decide, by decide, by decide⟩,
   claim7_ruleset_expansion.2 "DOMAIN,example.org,no-resolve" "PROXY"
     (by decide) (by decide) (by decide)⟩

/-! ### Lemmas about the metadata codec -/

lemma containsSubChars_of_isPrefixOf {pat l : List Char}
    (h : pat.isPrefixOf l = true) : containsSubChars pat l = true := by
  cases l with
  | nil => simpa [containsSubChars] using h
  | cons c t => simp [containsSubChars, h]

/-- Every node the encoder produces is named `Traffic: ...`. -/
lemma createTrafficProxyNode_name {h : String} {d : Proxy}
    (hd : createTrafficProxyNode h = some d) :
    ∃ s, d.name = "Traffic: " ++ s := by
  unfold createTrafficProxyNode at hd
  cases hp : parseHeaderInfo h with
  | none =>
    rw [hp] at hd
    exact Option.noConfusion hd
  | some info =>
    rw [hp] at hd
    dsimp only at hd
    split at hd
    · split at hd
      · exact Option.noConfusion hd
      · obtain rfl := Option.some.inj hd
        refine ⟨fmtGB2I (((info.lookup "upload").getD 0) + ((info.lookup "download").getD 0)) ++
          " GB / " ++ fmtGB2I ((info.lookup "total").getD 0) ++ " GB" ++ " | " ++
          ("Expire: " ++ formatDate (civilFromDays (Int.fdiv ((info.lookup "expire").getD 0) 86400))), ?_⟩
        apply str_ext
        simp [str_data_append]
    · obtain rfl := Option.some.inj hd
      refine ⟨fmtGB2I (((info.lookup "upload").getD 0) + ((info.lookup "download").getD 0)) ++
        " GB / " ++ fmtGB2I ((info.lookup "total").getD 0) ++ " GB", ?_⟩
      apply str_ext
      simp [str_data_append]

/-- Every node the encoder produces matches `_is_traffic_node`, so repeated
updates never accumulate synthetic nodes. -/
lemma isTrafficNode_of_create {h : String} {d : Proxy}
    (hd : createTrafficProxyNode h = some d) : isTrafficNode d = true := by
  obtain ⟨s, hs⟩ := createTrafficProxyNode_name hd
  have hpre : "Traffic".data.isPrefixOf (("Traffic: " ++ s).data) = true := by
    rw [ List.isPrefixOf_iff_prefix]
    have hsplit : ("Traffic: " ++ s).data =
        "Traffic".data ++ (": ".data ++ s.data) := by
      rw [str_data_append,
        show "Traffic: ".data = "Traffic".data ++ ": ".data from by decide,
        List.append_assoc]
    rw [hsplit]
    exact List.prefix_append _ _
  have hcontains : containsSub "Traffic" d.name = true := by
    rw [hs]
    exact containsSubChars_of_isPrefixOf hpre
  unfold isTrafficNode
  rw [hcontains]
  simp

lemma filter_not_self (f : Proxy → Bool) (l : List Proxy) :
    (l.filter (fun p => !(f p))).filter f = [] := by
  induction l with
  | nil => rfl
  | cons a t ih =>
    rw [List.filter_cons]
    split
    · rename_i hna
      rw [List.filter_cons, if_neg ?_]
      · exact ih
      · rw [Bool.not_eq_true'] at hna
        simp [hna]
    · exact ih

/-- C9 (amended): on ingest with a parsable `subscription-userinfo` header,
the synthetic node is inserted first and every pre-existing proxy whose
name contains one of the *case-sensitive* keywords `Traffic`, `流量`,
`Expire`, `到期` (the `_is_traffic_node` heuristic — narrower than the
decoder's, which also recognises `过期` and ignores case) is removed;
the remaining proxies keep their order, and the saved list contains exactly
one heuristic-matching node. -/
theorem claim9_header_ingest (h : String) (proxies : List Proxy) (d : Proxy)
    (hne : h ≠ "") (hd : createTrafficProxyNode h = some d) :
    applySubscriptionHeader (some h) proxies =
      d :: proxies.filter (fun p => !(isTrafficNode p)) ∧
    (applySubscriptionHeader (some h) proxies).filter isTrafficNode = [d] := by
  have heq : applySubscriptionHeader (some h) proxies =
      d :: proxies.filter (fun p => !(isTrafficNode p)) := by
    unfold applySubscriptionHeader
    dsimp only
    rw [if_neg hne, hd]
  refine ⟨heq, ?_⟩
  rw [heq, List.filter_cons, if_pos (isTrafficNode_of_create hd),
    filter_not_self]

/-- Witness for C9: a header with no expiry, a fresh node list with one
plain proxy and one stale synthetic node. -/
theorem claim9_header_ingest_witness :
    ("upload=1;download=1;total=1;expire=0" ≠ "" ∧
     createTrafficProxyNode "upload=1;download=1;total=1;expire=0" =
       some ⟨"Traffic: 0.00 GB / 0.00 GB", dummyProxyFields⟩) ∧
    (applySubscriptionHeader (some "upload=1;download=1;total=1;expire=0")
        [⟨"Node A", []⟩, ⟨"Traffic: 9.00 GB / 9.00 GB", []⟩] =
      ⟨"Traffic: 0.00 GB / 0.00 GB", dummyProxyFields⟩ ::
        [⟨"Node A", []⟩, ⟨"Traffic: 9.00 GB / 9.00 GB", []⟩].filter
          (fun p => !(isTrafficNode p)) ∧
     (applySubscriptionHeader (some "upload=1;download=1;total=1;expire=0")
        [⟨"Node A", []⟩, ⟨"Traffic: 9.00 GB / 9.00 GB", []⟩]).filter isTrafficNode =
       [⟨"Traffic: 0.00 GB / 0.00 GB", dummyProxyFields⟩]) :=
  ⟨⟨by decide, by decide⟩,
   claim9_header_ingest "upload=1;download=1;total=1;expire=0"
     [⟨"Node A", []⟩, ⟨"Traffic: 9.00 GB / 9.00 GB", []⟩]
     ⟨"Traffic: 0.00 GB / 0.00 GB", dummyProxyFields⟩
     (by decide) (by decide)⟩

/-- Counterexample to C9 as stated: the proxy named `过期 2026-01-04` is
recognised by the decoder (its expire pattern accepts the `过期` keyword,
which `_is_traffic_node` does not check), yet ingest does *not* remove it —
it survives behind the fresh synthetic node. -/
theorem claim9_counterexample :
    (extractSubscriptionInfo "过期 2026-01-04" []).lookup "expire" =
      some "1767484800" ∧
    applySubscriptionHeader (some "upload=1;download=1;total=1;expire=0")
        [⟨"过期 2026-01-04", []⟩] =
      [⟨"Traffic: 0.00 GB / 0.00 GB", dummyProxyFields⟩,
       ⟨"过期 2026-01-04", []⟩] := by
  refine ⟨by decide, by decide⟩

/-- C8: the subscription-metadata codec round-trips the scenario header
through the synthetic proxy name — encoding yields the
`Traffic: 0.00 GB / 1.00 GB | Expire: 2026-01-04` name (containing both
scenario substrings), and decoding that very name recovers
`total = "1073741824"`, `expire = "1767484800"`, and `upload = "0"`
(the protocol folds upload into the traffic label, so the original `100`
is not recoverable).  Timezone fixed to UTC, as in the embedding. -/
theorem claim8_metadata_roundtrip :
    createTrafficProxyNode "upload=100;download=924;total=1073741824;expire=1767484800" =
      some ⟨"Traffic: 0.00 GB / 1.00 GB | Expire: 2026-01-04", dummyProxyFields⟩ ∧
    containsSub "Traffic: 0.00 GB / 1.00 GB"
      "Traffic: 0.00 GB / 1.00 GB | Expire: 2026-01-04" = true ∧
    containsSub "Expire: 2026-01-04"
      "Traffic: 0.00 GB / 1.00 GB | Expire: 2026-01-04" = true ∧
    (extractSubscriptionInfo
        "Traffic: 0.00 GB / 1.00 GB | Expire: 2026-01-04" []).lookup "total" =
      some "1073741824" ∧
    (extractSubscriptionInfo
        "Traffic: 0.00 GB / 1.00 GB | Expire: 2026-01-04" []).lookup "expire" =
      some "1767484800" ∧
    (extractSubscriptionInfo
        "Traffic: 0.00 GB / 1.00 GB | Expire: 2026-01-04" []).lookup "upload" =
      some "0" := by
  refine ⟨by decide, by decide, by decide, by decide, by decide, by decide⟩

/-- C5: unclassified proxies are routed to the group literally named
`PROXY`, in input order — on the scenario `[P1, P2]` with the empty
`PROXY` template the output group is exactly `[P1, P2]`; and when no
template is named `PROXY`, the unclassified-routing step is a no-op, so
the unclassified proxies are appended to no group (they survive only in
the passthrough proxies list). -/
theorem claim5_unclassified_routing :
    (processGroups [⟨"PROXY", "select", [], none, none, none, none, false⟩]
        ["P1", "P2"] ["P1", "P2"] =
      [⟨"PROXY", "select", ["P1", "P2"], none, none, none, false⟩]) ∧
    (∀ (templates : List GroupTemplate) (o p : List String),
      (∀ t ∈ templates, t.name ≠ "PROXY") →
      processGroups templates o p =
        pruneGroups (p ++ builtIns) (buildActiveGroups templates o p).1) := by
  constructor
  · decide
  · intro templates o p h
    rw [processGroups_eq]
    congr 1
    apply routeUnclassified_no_proxy
    intro g hg
    have hmem : g.name ∈ (buildActiveGroups templates o p).1.map (fun h => h.name) :=
      List.mem_map.mpr ⟨g, hg, rfl⟩
    rcases names_buildFold_sub o p templates ([], []) g.name hmem with h0 | h1
    · simp at h0
    · obtain ⟨t, ht, htn⟩ := List.mem_map.mp h1
      rw [← htn]
      exact h t ht

/-- Witness for C5's general part: a single template named `G` (not
`PROXY`), one proxy `P1` — synthesis coincides with the unrouted
pipeline. -/
theorem claim5_unclassified_routing_witness :
    (∀ t ∈ [(⟨"G", "select", [], none, none, none, none, false⟩ : GroupTemplate)],
      t.name ≠ "PROXY") ∧
    processGroups [⟨"G", "select", [], none, none, none, none, false⟩]
        ["P1"] ["P1"] =
      pruneGroups (["P1"] ++ builtIns)
        (buildActiveGroups [⟨"G", "select", [], none, none, none, none, false⟩]
          ["P1"] ["P1"]).1 :=
  ⟨fun t ht => by
      rw [List.mem_singleton] at ht
      subst ht
      decide,
   claim5_unclassified_routing.2
     [⟨"G", "select", [], none, none, none, none, false⟩] ["P1"] ["P1"]
     (fun t ht => by
       rw [List.mem_singleton] at ht
       subst ht
       decide)⟩

/-- C10: duplicate template names — the synthesized output never contains
two groups with the same name (the active map is keyed by name), and on
the concrete duplicate-name scenario the later template's content replaces
the earlier one's without merging, while the earlier template's proxies
still count as used for unclassified routing (`P1` reaches no group, and
only `P3` is routed to `PROXY`). -/
theorem claim10_duplicate_template_names :
    (∀ (templates : List GroupTemplate) (o p : List String),
      ((processGroups templates o p).map (fun h => h.name)).Nodup) ∧
    (processGroups
        [⟨"G", "select", ["P1"], none, none, none, none, false⟩,
         ⟨"G", "select", ["P2"], none, none, none, none, false⟩,
         ⟨"PROXY", "select", [], none, none, none, none, false⟩]
        ["P1", "P2", "P3"] ["P1", "P2", "P3"] =
      [⟨"G", "select", ["P2"], none, none, none, false⟩,
       ⟨"PROXY", "select", ["P3"], none, none, none, false⟩]) := by
  constructor
  · intro templates o p
    rw [processGroups_eq]
    unfold pruneGroups
    apply nodup_names_pruneAux
    rw [map_name_routeUnclassified]
    exact nodup_names_buildFold o p templates ([], []) (by simp)
  · decide

/-- C4: the pruning fixed point is idempotent — for every group map and
base valid-target set, applying `_prune_groups` a second time to its own
output returns that output unchanged (no group deleted, no entry
filtered). -/
theorem claim4_prune_idempotent (base : List String) (gs : List PGroup) :
    pruneGroups base (pruneGroups base gs) = pruneGroups base gs :=
  pruneGroups_of_inv (pruneGroups_inv base gs)

/-- C2 (amended): during a pruning pass, a `removable` group with an
unresolved reference is deleted in its entirety (no group of its name
survives the pass), and a non-removable group with an unresolved reference
survives with exactly the unresolved references stripped — *provided at
least one of its references resolves*; a non-removable group all of whose
references are unresolved is pruned empty and deleted (see the
counterexample to the original claim). -/
theorem claim2_prune_dichotomy (base : List String) (gs : List PGroup)
    (g : PGroup) (hg : g ∈ gs)
    (hnd : (gs.map (fun h => h.name)).Nodup)
    (hdangling : ∃ p ∈ g.proxies, p ∉ validTargetsOf base gs) :
    (g.removable = true →
      ∀ h ∈ prunePassList base gs, h.name ≠ g.name) ∧
    (g.removable = false → (∃ q ∈ g.proxies, q ∈ validTargetsOf base gs) →
      { g with proxies :=
          g.proxies.filter (fun p => (validTargetsOf base gs).contains p) } ∈
        prunePassList base gs) := by
  constructor
  · intro hrem h hh hname
    obtain ⟨g', hg', hstep⟩ := List.mem_filterMap.mp hh
    have hname' : h.name = g'.name := (pruneGroupStep_eq_some hstep).1
    have : g' = g := by
      apply List.inj_on_of_nodup_map hnd hg' hg
      rw [← hname', hname]
    subst this
    have hnone : pruneGroupStep (validTargetsOf base gs) g' = none := by
      have hany : g'.proxies.any (fun p => !((validTargetsOf base gs).contains p)) = true := by
        rw [List.any_eq_true]
        obtain ⟨p, hp, hpv⟩ := hdangling
        refine ⟨p, hp, ?_⟩
        have hcf : (validTargetsOf base gs).contains p = false := by
          cases hc : (validTargetsOf base gs).contains p with
          | false => rfl
          | true => exact absurd (contains_iff_mem.mp hc) hpv
        rw [Bool.not_eq_true']
        exact hcf
      unfold pruneGroupStep
      rw [hrem, hany]
      simp
    rw [hnone] at hstep
    exact Option.noConfusion hstep
  · intro hrem ⟨q, hq, hqv⟩
    apply List.mem_filterMap.mpr
    refine ⟨g, hg, ?_⟩
    have hfne : q ∈ g.proxies.filter (fun p => (validTargetsOf base gs).contains p) :=
      List.mem_filter.mpr ⟨hq, contains_iff_mem.mpr hqv⟩
    have hempty : (g.proxies.filter (fun p => (validTargetsOf base gs).contains p)).isEmpty = false := by
      cases hc : g.proxies.filter (fun p => (validTargetsOf base gs).contains p) with
      | nil => rw [hc] at hfne; exact absurd hfne (by simp)
      | cons a t => simp
    unfold pruneGroupStep
    rw [hrem, Bool.false_and, if_neg (by simp)]
    simp only [hempty]
    rw [if_neg (by simp)]

/-- Witness for C2 at a concrete instance: group `R` is removable with a
dangling reference and is deleted by the pass; group `K` is non-removable
with a dangling reference and one valid reference and survives filtered. -/
theorem claim2_prune_dichotomy_witness :
    (∀ h ∈ prunePassList ["P"]
        [⟨"R", "select", ["X", "P"], none, none, none, true⟩],
      h.name ≠ "R") ∧
    ({ name := "K", type := "select", proxies := ["P"], url := none,
       interval := none, tolerance := none, removable := false } : PGroup) ∈
      prunePassList ["P"]
        [⟨"K", "select", ["X", "P"], none, none, none, false⟩] := by
  constructor
  · have h := claim2_prune_dichotomy ["P"]
      [⟨"R", "select", ["X", "P"], none, none, none, true⟩]
      ⟨"R", "select", ["X", "P"], none, none, none, true⟩
      (by simp) (by simp)
      ⟨"X", by simp, by simp [validTargetsOf, builtIns]⟩
    exact h.1 rfl
  · have h := claim2_prune_dichotomy ["P"]
      [⟨"K", "select", ["X", "P"], none, none, none, false⟩]
      ⟨"K", "select", ["X", "P"], none, none, none, false⟩
      (by simp) (by simp)
      ⟨"X", by simp, by simp [validTargetsOf, builtIns]⟩
    have h2 := h.2 rfl ⟨"P", by simp, by simp [validTargetsOf]⟩
    convert h2 using 2

/-- Counterexample to C2 as stated: a *non-removable* group whose
references are all unresolved does not survive with the references
stripped — it is pruned empty and deleted by the very same pass. -/
theorem claim2_counterexample :
    (⟨"A", "select", ["X"], none, none, none, false⟩ : PGroup).removable = false ∧
    (∃ p ∈ (⟨"A", "select", ["X"], none, none, none, false⟩ : PGroup).proxies,
      p ∉ validTargetsOf [] [⟨"A", "select", ["X"], none, none, none, false⟩]) ∧
    prunePassList [] [⟨"A", "select", ["X"], none, none, none, false⟩] = [] := by
  refine ⟨rfl, ⟨"X", by simp, by decide⟩, by decide⟩

/-- C3: the removable cascade scenario — with no proxy named `X`,
non-removable group `A = [X]` and removable group `B = [A]`, the first
pruning pass empties and deletes `A` (keeping `B`, whose reference to `A`
is still valid at the start of that pass), the second pass deletes the
now-dangling removable `B`, and full group synthesis returns neither. -/
theorem claim3_removable_cascade :
    processGroups
        [⟨"A", "select", ["X"], none, none, none, none, false⟩,
         ⟨"B", "select", ["A"], none, none, none, none, true⟩]
        [] [] = [] ∧
    prunePassList builtIns
        [⟨"A", "select", ["X"], none, none, none, false⟩,
         ⟨"B", "select", ["A"], none, none, none, true⟩] =
      [⟨"B", "select", ["A"], none, none, none, true⟩] ∧
    prunePassList builtIns
        [⟨"B", "select", ["A"], none, none, none, true⟩] = [] := by
  refine ⟨by decide, by decide, by decide⟩

end Proxygen
